import Mathlib

/-!
Verification of the wave-chamber core of `noise-maker` (src/main.rs).

The chamber state is a pair of pressure buffers `prev`/`cur` of `f64`
values.  The embedding uses exact rationals `ℚ` for the scalar type: every
computation the properties below exercise stays inside small dyadic
rationals, on which `f64` arithmetic is exact, so the rational model agrees
bit-for-bit with the source on those runs.

Source operations embedded here:
  - `Cells::new`            (main.rs lines 29-36)  -> `Cells.new`
  - `Chamber::add_pressure` (main.rs lines 45-48)  -> `add_pressure`
  - `Chamber::update_pressures` (main.rs lines 74-100) -> `update_pressures`
  - `Model::reset`          (main.rs lines 16-19)  -> `reset`
-/

namespace NoiseMaker

/-- The buffer pair of `Chamber` / `Cells` in the source: `prev` is the
pressure field at time `t-1`, `cur` at time `t`.  The source fixes the
length by a const generic `N`; here the length is the list length. -/
structure Cells where
  prev : List ℚ
  cur : List ℚ
  deriving DecidableEq, Repr

/-- Source `Cells::new`: both buffers are all-zero arrays of length `n`
(`[0.0; N]`). -/
def Cells.new (n : ℕ) : Cells :=
  { prev := List.replicate n 0, cur := List.replicate n 0 }

/-- The source's cell count: `const CELL_COUNT: usize = 128`. -/
def CELL_COUNT : ℕ := 128

/-- Source `Chamber::add_pressure`: `self.cells.cur[0] += pressure`.  Only index 0
of `cur` is written; `prev` is untouched. -/
def add_pressure (pressure : ℚ) (c : Cells) : Cells :=
  { c with cur := c.cur.set 0 (c.cur.getD 0 0 + pressure) }

/-- Source `Model::reset`: both buffers are overwritten with all-zero arrays of
the chamber length (`[0.0; CELL_COUNT]` in the source, where the length of
each buffer is always `CELL_COUNT`). -/
def reset (c : Cells) : Cells :=
  { prev := List.replicate c.prev.length 0, cur := List.replicate c.cur.length 0 }

/-- One cell of the freshly computed buffer `next` in
`Chamber::update_pressures`.  The loop `for index in 1..(N - 1)` writes
`next[index] = (2.0 * cur) - prev + 0.5 * (right - 2.0 * cur + left)` with
`cur = cells.cur[index]`, `prev = cells.prev[index]`,
`left = cells.cur[index - 1]`, `right = cells.cur[index + 1]`; every other
index keeps the initial `0.0` of `let mut next = [0.0; N]`.  The
coefficient `c2` is the squared Courant number; the source hard-codes
`0.5`. -/
def nextVal (c2 : ℚ) (prevL curL : List ℚ) (i : ℕ) : ℚ :=
  if 1 ≤ i ∧ i + 1 < curL.length then
    (2 * curL.getD i 0) - prevL.getD i 0
      + c2 * (curL.getD (i + 1) 0 - 2 * curL.getD i 0 + curL.getD (i - 1) 0)
  else 0

/-- The whole `next` buffer of `Chamber::update_pressures`: length `N`,
each index given by `nextVal`.  The loop body only reads `cells.cur` and
`cells.prev` (never `next`), so the per-index description is exact. -/
def nextBuf (c2 : ℚ) (prevL curL : List ℚ) : List ℚ :=
  (List.range curL.length).map (nextVal c2 prevL curL)

/-- Modelled from the spec: the spec makes the stencil coefficient `C2` a
configuration constant satisfying `0 < C2 <= 1`, while the source has no
configuration surface and hard-codes `0.5` at the stencil line; this is
the step with the coefficient exposed.  After computing `next`, the
buffers rotate: `self.cells.prev = self.cells.cur; self.cells.cur = next`. -/
def stepWith (c2 : ℚ) (c : Cells) : Cells :=
  { prev := c.cur, cur := nextBuf c2 c.prev c.cur }

/-- Source `Chamber::update_pressures` exactly as in the source: the stencil with
coefficient `0.5`, then the buffer rotation. -/
def update_pressures (c : Cells) : Cells :=
  { prev := c.cur, cur := nextBuf 0.5 c.prev c.cur }

/-- The operations the surrounding app performs on the chamber: key `A`
injects pressure, the periodic `update` calls `update_pressures`, key `R`
resets. -/
inductive Op where
  | inject (q : ℚ)
  | step
  | reset
  deriving DecidableEq, Repr

/-- Apply one operation to the chamber state. -/
def applyOp (c : Cells) : Op → Cells
  | .inject q => add_pressure q c
  | .step => update_pressures c
  | .reset => reset c

/-- Run a finite sequence of operations from a given state. -/
def run (ops : List Op) (c : Cells) : Cells :=
  ops.foldl applyOp c

/-- Trace of a run: every intermediate chamber state, initial state first. -/
def trace (ops : List Op) (c : Cells) : List Cells :=
  List.scanl applyOp c ops

/-- In `for index in 1..(N - 1)` the range bound `N - 1` is `usize`
subtraction, which wraps modulo `2 ^ 64`. -/
def usizeSub (a b : ℕ) : ℕ :=
  (a + 2 ^ 64 - b) % 2 ^ 64

/-- The indices the stencil loop `for index in 1..(N - 1)` visits: the
half-open range from `1` to the wrapped bound. -/
def loopIndices (n : ℕ) : List ℕ :=
  List.range' 1 (usizeSub n 1 - 1)

/-- Largest absolute pressure value in a buffer. -/
def maxAbs (l : List ℚ) : ℚ :=
  l.foldl (fun m x => max m |x|) 0

/-- Largest absolute pressure value seen in `cur` over the initial state
and the first `k` steps with stencil coefficient `c2`. -/
def runMax (c2 : ℚ) : ℕ → Cells → ℚ
  | 0, c => maxAbs c.cur
  | k + 1, c => max (maxAbs c.cur) (runMax c2 k (stepWith c2 c))

/-- Integer mirror of the `c2 = 1` stencil, walking the `cur` buffer as a
three-cell window paired with the matching `prev` entries; used as the
computational form for the stability run, where every value is an
integer. -/
def stencilRowZ : List ℤ → List ℤ → List ℤ
  | p :: ps, l :: c :: r :: cs =>
      ((2 * c) - p + (r - 2 * c + l)) :: stencilRowZ ps (c :: r :: cs)
  | _, _ => []

/-- Integer mirror of the whole `next` buffer for `c2 = 1`. -/
def nextFastZ (prevL curL : List ℤ) : List ℤ :=
  match curL with
  | [] => []
  | [_] => [0]
  | _ :: _ :: _ => 0 :: (stencilRowZ prevL.tail curL ++ [0])

/-- Integer mirror of `maxAbs`. -/
def maxAbsZ (l : List ℤ) : ℤ :=
  l.foldl (fun m x => max m |x|) 0

/-- Integer mirror of one step on a `(prev, cur)` pair. -/
def stepZ (s : List ℤ × List ℤ) : List ℤ × List ℤ :=
  (s.2, nextFastZ s.1 s.2)

/-- Integer mirror of `runMax` for `c2 = 1`. -/
def runMaxZ : ℕ → List ℤ × List ℤ → ℤ
  | 0, s => maxAbsZ s.2
  | k + 1, s => max (maxAbsZ s.2) (runMaxZ k (stepZ s))

/-- Iterated integer step. -/
def iterStepZ : ℕ → List ℤ × List ℤ → List ℤ × List ℤ
  | 0, s => s
  | k + 1, s => iterStepZ k (stepZ s)

/-- All-zero 128-cell integer buffer. -/
def zeros128 : List ℤ := List.replicate 128 0

/-- State of the stability run: a single pulse of height `x` at cell `a`
in `prev` and height `y` at cell `b` in `cur`. -/
def sZ (a : ℕ) (x : ℤ) (b : ℕ) (y : ℤ) : List ℤ × List ℤ :=
  (zeros128.set a x, zeros128.set b y)


/-- A read anywhere in an all-zero buffer yields zero. -/
theorem getD_replicate_zero (n i : ℕ) : (List.replicate n (0 : ℚ)).getD i 0 = 0 := by
  simp only [List.getD_eq_getElem?_getD, List.getElem?_replicate]
  split <;> rfl

/-- The freshly computed buffer has the same length as `cur`. -/
theorem nextBuf_length (c2 : ℚ) (p c : List ℚ) : (nextBuf c2 p c).length = c.length := by
  simp [nextBuf]

/-- Reading the freshly computed buffer at an in-range index gives the
per-index description. -/
theorem nextBuf_getD (c2 : ℚ) (p c : List ℚ) (i : ℕ) (h : i < c.length) :
    (nextBuf c2 p c).getD i 0 = nextVal c2 p c i := by
  simp [nextBuf, List.getD_eq_getElem?_getD, List.getElem?_map, List.getElem?_range h]

/-- Index `0` of the freshly computed buffer is `0`. -/
theorem nextBuf_getD_zero (c2 : ℚ) (p c : List ℚ) : (nextBuf c2 p c).getD 0 0 = 0 := by
  rcases Nat.eq_zero_or_pos c.length with h | h
  · rcases List.eq_nil_of_length_eq_zero h with rfl
    rfl
  · rw [nextBuf_getD c2 p c 0 h, nextVal]
    simp

/-- The last index of the freshly computed buffer is `0`. -/
theorem nextBuf_getD_last (c2 : ℚ) (p c : List ℚ) :
    (nextBuf c2 p c).getD (c.length - 1) 0 = 0 := by
  rcases Nat.eq_zero_or_pos c.length with h | h
  · rcases List.eq_nil_of_length_eq_zero h with rfl
    rfl
  · rw [nextBuf_getD c2 p c _ (by omega), nextVal]
    rw [if_neg]
    omega

/-- Every chamber operation keeps the length of `cur`. -/
theorem applyOp_cur_length (c : Cells) (o : Op) :
    (applyOp c o).cur.length = c.cur.length := by
  cases o <;> simp [applyOp, add_pressure, update_pressures, reset, nextBuf_length]

/-- A run keeps the length of `cur`. -/
theorem run_cur_length (ops : List Op) (c : Cells) :
    (run ops c).cur.length = c.cur.length := by
  induction ops generalizing c with
  | nil => rfl
  | cons o ops ih =>
      show (run ops (applyOp c o)).cur.length = c.cur.length
      rw [ih, applyOp_cur_length]

/-- A run from a state whose two buffers have length `n` keeps both
lengths at `n`. -/
theorem run_lengths (ops : List Op) (c : Cells) (n : ℕ)
    (hp : c.prev.length = n) (hc : c.cur.length = n) :
    (run ops c).prev.length = n ∧ (run ops c).cur.length = n := by
  induction ops generalizing c with
  | nil => exact ⟨hp, hc⟩
  | cons o ops ih =>
      refine ih (applyOp c o) ?_ ?_
      · cases o <;> simp [applyOp, add_pressure, update_pressures, reset, hp, hc]
      · rw [applyOp_cur_length]; exact hc

/-- C2: after one `step()`, the new `prev[i]` is the value `cur[i]` held
immediately before the call for every index; the old `cur` is the new
`prev` whole, and the freshly computed buffer is the new `cur`. -/
theorem step_rotates_buffers (c : Cells) (i : ℕ) :
    (update_pressures c).prev.getD i 0 = c.cur.getD i 0 ∧
    (update_pressures c).prev = c.cur ∧
    (update_pressures c).cur = nextBuf 0.5 c.prev c.cur :=
  ⟨rfl, rfl, rfl⟩

/-- C4: `inject_pressure(amount)` adds `amount` to `cur[0]` only: every
`cur[i]` with `i >= 1` is unchanged, `prev` is unchanged, the length is
unchanged, and the operation is total. -/
theorem inject_only_cur0 (q : ℚ) (c : Cells) (h : 0 < c.cur.length) :
    (add_pressure q c).cur.getD 0 0 = c.cur.getD 0 0 + q ∧
    (∀ i, 1 ≤ i → (add_pressure q c).cur.getD i 0 = c.cur.getD i 0) ∧
    (add_pressure q c).prev = c.prev ∧
    (add_pressure q c).cur.length = c.cur.length := by
  refine ⟨?_, ?_, rfl, by simp [add_pressure]⟩
  · simp [add_pressure, List.getD_eq_getElem?_getD, List.getElem?_set_self h]
  · intro i hi
    simp [add_pressure, List.getD_eq_getElem?_getD, List.getElem?_set_ne (by omega : 0 ≠ i)]

/-- Witness for C4 at a concrete chamber. -/
theorem inject_only_cur0_witness :
    0 < (Cells.new 3).cur.length ∧
    (add_pressure 1 (Cells.new 3)).cur.getD 0 0 = (Cells.new 3).cur.getD 0 0 + 1 :=
  ⟨by decide, (inject_only_cur0 1 (Cells.new 3) (by decide)).1⟩

/-- C5: for `N = 5`, `inject_pressure(1.0)` followed by one `step()` with
the source coefficient `0.5` gives `cur[1] == 0.5` as the only nonzero
interior cell (`cur[2] == cur[3] == 0`), with `cur[0] == cur[4] == 0` by
the boundary rule. -/
theorem single_impulse_propagation :
    (run [Op.inject 1, Op.step] (Cells.new 5)).cur.getD 1 0 = 0.5 ∧
    (run [Op.inject 1, Op.step] (Cells.new 5)).cur.getD 2 0 = 0 ∧
    (run [Op.inject 1, Op.step] (Cells.new 5)).cur.getD 3 0 = 0 ∧
    (run [Op.inject 1, Op.step] (Cells.new 5)).cur.getD 0 0 = 0 ∧
    (run [Op.inject 1, Op.step] (Cells.new 5)).cur.getD 4 0 = 0 := by
  refine ⟨?_, ?_, ?_, ?_, ?_⟩ <;> with_unfolding_all rfl

/-- C9: one `step()` zeroes both boundary cells of `cur` exactly, for any
pre-call state — in particular right after an injection made `cur[0]`
nonzero; between the injection and the step `cur[0]` is the injected
value. -/
theorem step_clears_boundary_even_after_inject (c : Cells) (n : ℕ)
    (hlen : c.cur.length = n) (h2 : 2 ≤ n) :
    (update_pressures c).cur.getD 0 0 = 0 ∧
    (update_pressures c).cur.getD (n - 1) 0 = 0 ∧
    (add_pressure 1 (Cells.new n)).cur.getD 0 0 = 1 ∧
    (update_pressures (add_pressure 1 (Cells.new n))).cur.getD 0 0 = 0 := by
  refine ⟨nextBuf_getD_zero _ _ _, ?_, ?_, nextBuf_getD_zero _ _ _⟩
  · have := nextBuf_getD_last 0.5 c.prev c.cur
    rwa [hlen] at this
  · have h0 : (List.replicate n (0 : ℚ)).getD 0 0 = 0 := getD_replicate_zero n 0
    have hlt : 0 < (List.replicate n (0 : ℚ)).length := by simp; omega
    simp only [add_pressure, Cells.new, h0]
    rw [List.getD_eq_getElem?_getD, List.getElem?_set_self hlt]
    simp

/-- Witness for C9 at a concrete chamber. -/
theorem step_clears_boundary_even_after_inject_witness :
    (Cells.new 2).cur.length = 2 ∧ 2 ≤ 2 ∧
    (update_pressures (Cells.new 2)).cur.getD 0 0 = 0 :=
  ⟨by decide, by decide,
    (step_clears_boundary_even_after_inject (Cells.new 2) 2 (by decide) (by decide)).1⟩

/-- C1: for a chamber with `N >= 3`, one `step()` computes every interior
cell `1 <= i <= N - 2` of the new `cur` by the three-point stencil with
coefficient `0.5` from the pre-call `cur` and `prev` buffers, and leaves
the two boundary cells at `0`. -/
theorem step_interior_stencil (c : Cells) (n : ℕ) (hlen : c.cur.length = n)
    (h3 : 3 ≤ n) (i : ℕ) (h1 : 1 ≤ i) (h2 : i ≤ n - 2) :
    (update_pressures c).cur.getD i 0 =
      (2 * c.cur.getD i 0) - c.prev.getD i 0
        + 0.5 * (c.cur.getD (i + 1) 0 - 2 * c.cur.getD i 0 + c.cur.getD (i - 1) 0) ∧
    (update_pressures c).cur.getD 0 0 = 0 ∧
    (update_pressures c).cur.getD (n - 1) 0 = 0 := by
  refine ⟨?_, nextBuf_getD_zero _ _ _, ?_⟩
  · show (nextBuf 0.5 c.prev c.cur).getD i 0 = _
    rw [nextBuf_getD 0.5 c.prev c.cur i (by omega), nextVal, if_pos (by omega)]
  · have := nextBuf_getD_last 0.5 c.prev c.cur
    rwa [hlen] at this

/-- Witness for C1 at a concrete chamber and interior index. -/
theorem step_interior_stencil_witness :
    (⟨[4, 5, 6], [1, 2, 3]⟩ : Cells).cur.length = 3 ∧ 3 ≤ 3 ∧ 1 ≤ 1 ∧ 1 ≤ 3 - 2 ∧
    (update_pressures ⟨[4, 5, 6], [1, 2, 3]⟩).cur.getD 1 0 =
      (2 * ((⟨[4, 5, 6], [1, 2, 3]⟩ : Cells).cur.getD 1 0))
        - (⟨[4, 5, 6], [1, 2, 3]⟩ : Cells).prev.getD 1 0
        + 0.5 * ((⟨[4, 5, 6], [1, 2, 3]⟩ : Cells).cur.getD 2 0
            - 2 * (⟨[4, 5, 6], [1, 2, 3]⟩ : Cells).cur.getD 1 0
            + (⟨[4, 5, 6], [1, 2, 3]⟩ : Cells).cur.getD 0 0) :=
  ⟨by decide, by decide, by decide, by decide,
    (step_interior_stencil ⟨[4, 5, 6], [1, 2, 3]⟩ 3 (by decide) (by decide) 1
      (by decide) (by decide)).1⟩

/-- C3: running any operation sequence from a fresh chamber, the boundary
cells `cur[0]` and `cur[N-1]` are `0` at every point that immediately
follows a `step()` call — that is, after any number of `step()` calls,
whatever injections are interleaved before them — and in the fresh state
itself.  (Directly after an injection and before the next step `cur[0]`
may be nonzero; see the C9 theorem.) -/
theorem boundary_invariant_after_steps (n : ℕ) (pre : List Op) :
    ((run (pre ++ [Op.step]) (Cells.new n)).cur.getD 0 0 = 0 ∧
     (run (pre ++ [Op.step]) (Cells.new n)).cur.getD (n - 1) 0 = 0) ∧
    ((Cells.new n).cur.getD 0 0 = 0 ∧ (Cells.new n).cur.getD (n - 1) 0 = 0) := by
  have hrun : run (pre ++ [Op.step]) (Cells.new n) =
      update_pressures (run pre (Cells.new n)) := by
    simp [run, List.foldl_append, applyOp]
  have hlen : (run pre (Cells.new n)).cur.length = n := by
    rw [run_cur_length]; simp [Cells.new]
  refine ⟨⟨?_, ?_⟩, getD_replicate_zero n 0, getD_replicate_zero n (n - 1)⟩
  · rw [hrun]; exact nextBuf_getD_zero _ _ _
  · rw [hrun]
    have := nextBuf_getD_last 0.5 (run pre (Cells.new n)).prev (run pre (Cells.new n)).cur
    rwa [hlen] at this

/-- C6: a freshly constructed chamber is all-zero in both buffers, and
`reset()` returns the chamber to exactly that state after any prior
history of injections, steps and resets. -/
theorem fresh_and_reset_zero (n : ℕ) (ops : List Op) (i : ℕ) :
    (Cells.new n).cur.getD i 0 = 0 ∧
    (Cells.new n).prev.getD i 0 = 0 ∧
    reset (run ops (Cells.new n)) = Cells.new n := by
  refine ⟨getD_replicate_zero n i, getD_replicate_zero n i, ?_⟩
  obtain ⟨hp, hc⟩ := run_lengths ops (Cells.new n) n (by simp [Cells.new]) (by simp [Cells.new])
  rw [show reset (run ops (Cells.new n)) =
      ⟨List.replicate (run ops (Cells.new n)).prev.length 0,
       List.replicate (run ops (Cells.new n)).cur.length 0⟩ from rfl, hp, hc]
  rfl

/-- C7: the chamber operations are deterministic functions of their
inputs: two identically constructed chambers fed the same operation
sequence produce identical `prev`/`cur` buffers at every intermediate
step of the run. -/
theorem chamber_deterministic (n : ℕ) (c₁ c₂ : Cells) (ops₁ ops₂ : List Op)
    (hc₁ : c₁ = Cells.new n) (hc₂ : c₂ = Cells.new n) (hops : ops₁ = ops₂) :
    trace ops₁ c₁ = trace ops₂ c₂ := by
  subst hc₁; subst hc₂; subst hops; rfl

/-- Witness for C7 at a concrete pair of runs. -/
theorem chamber_deterministic_witness :
    Cells.new 3 = Cells.new 3 ∧
    trace [Op.inject 1, Op.step] (Cells.new 3) =
      trace [Op.inject 1, Op.step] (Cells.new 3) :=
  ⟨rfl, chamber_deterministic 3 (Cells.new 3) (Cells.new 3)
    [Op.inject 1, Op.step] [Op.inject 1, Op.step] rfl rfl rfl⟩

/-- C10: for every `1 <= N < 2 ^ 64` the step is total and in-bounds:
construction never validates `N >= 3`; every index the stencil loop
visits keeps all three neighbor reads inside `[0, N)`; the step preserves
the buffer length; for `N = 1` and `N = 2` the loop is empty, so the step
only rotates `cur` into `prev` and zeroes `cur`; and the `usize` loop
bound `N - 1` only wraps for `N = 0`. -/
theorem step_total_in_bounds (n : ℕ) (hn : 1 ≤ n) (hw : n < 2 ^ 64) :
    (∀ i ∈ loopIndices n, i - 1 < n ∧ i < n ∧ i + 1 < n) ∧
    (∀ i, i ∈ loopIndices n ↔ 1 ≤ i ∧ i + 1 < n) ∧
    (∀ c : Cells, c.cur.length = n →
      (update_pressures c).cur.length = n ∧ (update_pressures c).prev.length = n) ∧
    (n ≤ 2 → ∀ c : Cells, c.cur.length = n →
      update_pressures c = { prev := c.cur, cur := List.replicate n 0 }) ∧
    usizeSub n 1 = n - 1 ∧
    usizeSub 0 1 = 2 ^ 64 - 1 ∧
    (Cells.new n).cur.length = n ∧ (Cells.new n).prev.length = n := by
  have hsub : usizeSub n 1 = n - 1 := by
    unfold usizeSub; omega
  have hmem : ∀ i, i ∈ loopIndices n ↔ 1 ≤ i ∧ i + 1 < n := by
    intro i
    rw [loopIndices, hsub, List.mem_range'_1]
    omega
  refine ⟨?_, hmem, ?_, ?_, hsub, ?_, by simp [Cells.new], by simp [Cells.new]⟩
  · intro i hi
    have := (hmem i).1 hi
    omega
  · intro c hc
    refine ⟨?_, ?_⟩
    · rw [show (update_pressures c).cur = nextBuf 0.5 c.prev c.cur from rfl,
        nextBuf_length, hc]
    · exact hc
  · intro hle c hc
    show (⟨c.cur, nextBuf 0.5 c.prev c.cur⟩ : Cells) = _
    have : nextBuf 0.5 c.prev c.cur = List.replicate n 0 := by
      rw [List.eq_replicate_iff]
      refine ⟨by rw [nextBuf_length, hc], ?_⟩
      intro b hb
      obtain ⟨j, hj, rfl⟩ := List.mem_map.1 hb
      rw [List.mem_range] at hj
      rw [nextVal, if_neg (by rw [hc]; omega)]
    rw [this]
  · unfold usizeSub; norm_num

/-- Witness for C10 at a concrete length. -/
theorem step_total_in_bounds_witness :
    1 ≤ 2 ∧ 2 < 2 ^ 64 ∧ usizeSub 2 1 = 2 - 1 :=
  ⟨by norm_num, by norm_num, (step_total_in_bounds 2 (by norm_num) (by norm_num)).2.2.2.2.1⟩

/-- Reading a casted buffer is the cast of the integer read. -/
theorem getD_map_intCast (l : List ℤ) (i : ℕ) :
    (l.map (fun z : ℤ => (z : ℚ))).getD i 0 = ((l.getD i 0 : ℤ) : ℚ) := by
  induction l generalizing i with
  | nil => simp
  | cons a l ih =>
      cases i with
      | zero => simp
      | succ j => simpa using ih j

/-- Length of the integer stencil row. -/
theorem stencilRowZ_length (ps ws : List ℤ) :
    (stencilRowZ ps ws).length = min ps.length (ws.length - 2) := by
  induction ps generalizing ws with
  | nil =>
      rcases ws with _ | ⟨l, _ | ⟨c, _ | ⟨r, cs⟩⟩⟩ <;> simp [stencilRowZ]
  | cons p ps ih =>
      rcases ws with _ | ⟨l, _ | ⟨c, _ | ⟨r, cs⟩⟩⟩ <;>
        simp [stencilRowZ, ih] <;> omega

/-- Entry `j` of the integer stencil row is the stencil applied at window
position `j`. -/
theorem stencilRowZ_getD (ps ws : List ℤ) (j : ℕ) (hj : j < ps.length)
    (hw : j + 2 < ws.length) :
    (stencilRowZ ps ws).getD j 0 =
      (2 * ws.getD (j + 1) 0) - ps.getD j 0
        + (ws.getD (j + 2) 0 - 2 * ws.getD (j + 1) 0 + ws.getD j 0) := by
  induction ps generalizing ws j with
  | nil => simp at hj
  | cons p ps ih =>
      rcases ws with _ | ⟨l, _ | ⟨c, _ | ⟨r, cs⟩⟩⟩
      · simp at hw
      · simp at hw
      · simp at hw
      · cases j with
        | zero => simp [stencilRowZ]
        | succ j' =>
            have hj' : j' < ps.length := by simpa using hj
            have hw' : j' + 2 < (c :: r :: cs).length := by
              simp at hw ⊢
              omega
            simpa [stencilRowZ, List.getD_cons_succ] using ih (c :: r :: cs) j' hj' hw'

/-- The integer `next` buffer keeps the buffer length. -/
theorem nextFastZ_length (ps ws : List ℤ) (h : ps.length = ws.length) :
    (nextFastZ ps ws).length = ws.length := by
  rcases ws with _ | ⟨a, _ | ⟨b, t⟩⟩
  · simp [nextFastZ]
  · simp [nextFastZ]
  · simp [nextFastZ, stencilRowZ_length, List.length_tail, h]

/-- On integer-valued buffers of equal length, the source `next` buffer at
stencil coefficient `1` is the cast of the integer mirror. -/
theorem nextBuf_one_cast (ps ws : List ℤ) (h : ps.length = ws.length) :
    nextBuf 1 (ps.map (fun z : ℤ => (z : ℚ))) (ws.map (fun z : ℤ => (z : ℚ))) =
      (nextFastZ ps ws).map (fun z : ℤ => (z : ℚ)) := by
  apply List.ext_getElem
  · simp [nextBuf_length, nextFastZ_length ps ws h]
  · intro i h1 h2
    have hiw : i < ws.length := by
      have := h1
      rwa [nextBuf_length, List.length_map] at this
    rw [← List.getD_eq_getElem _ 0 h1, ← List.getD_eq_getElem _ 0 h2]
    rw [nextBuf_getD _ _ _ i (by simpa using hiw), getD_map_intCast]
    by_cases hin : 1 ≤ i ∧ i + 1 < ws.length
    · -- interior index
      rcases ws with _ | ⟨a, _ | ⟨b, t⟩⟩
      · simp at hiw
      · exact absurd hin.2 (by simp)
      · rcases ps with _ | ⟨q, qs⟩
        · simp at h
        · have hlen : (stencilRowZ (q :: qs).tail (a :: b :: t)).length =
              (a :: b :: t).length - 2 := by
            rw [stencilRowZ_length]
            simp at h ⊢
            omega
          have hi1 : i - 1 < (stencilRowZ (q :: qs).tail (a :: b :: t)).length := by
            rw [hlen]
            simp at hin ⊢
            omega
          have hstep : (nextFastZ (q :: qs) (a :: b :: t)).getD i 0 =
              (stencilRowZ qs (a :: b :: t)).getD (i - 1) 0 := by
            show ((0 : ℤ) :: (stencilRowZ qs (a :: b :: t) ++ [0])).getD i 0 = _
            obtain ⟨i', rfl⟩ : ∃ i', i = i' + 1 := ⟨i - 1, by omega⟩
            rw [List.getD_cons_succ, List.getD_append _ _ _ _ (by simpa using hi1)]
            simp
          rw [hstep, stencilRowZ_getD qs (a :: b :: t) (i - 1)
              (by simp at h hin ⊢; omega) (by simp at hin ⊢; omega)]
          rw [nextVal, if_pos (by simpa using hin)]
          have e1 : i - 1 + 1 = i := by omega
          have e2 : i - 1 + 2 = i + 1 := by omega
          rw [e1, e2]
          have hq : qs.getD (i - 1) 0 = (q :: qs).getD i 0 := by
            obtain ⟨i', rfl⟩ : ∃ i', i = i' + 1 := ⟨i - 1, by omega⟩
            simp
          rw [hq]
          rw [getD_map_intCast, getD_map_intCast, getD_map_intCast, getD_map_intCast]
          push_cast
          ring
    · -- boundary index: both sides are zero
      rw [nextVal, if_neg (by simpa using hin)]
      rcases ws with _ | ⟨a, _ | ⟨b, t⟩⟩
      · simp at hiw
      · have : i = 0 := by simp at hiw; omega
        subst this
        simp [nextFastZ]
      · have hcase : i = 0 ∨ i = t.length + 1 := by
          simp at hiw hin
          omega
        rcases hcase with rfl | rfl
        · simp [nextFastZ]
        · have hstep : (nextFastZ ps (a :: b :: t)).getD (t.length + 1) 0 =
              ((stencilRowZ ps.tail (a :: b :: t) ++ [0]) : List ℤ).getD t.length 0 := by
            show ((0 : ℤ) :: (stencilRowZ ps.tail (a :: b :: t) ++ [0])).getD (t.length + 1) 0 = _
            rw [List.getD_cons_succ]
          have hlen : (stencilRowZ ps.tail (a :: b :: t)).length = t.length := by
            rw [stencilRowZ_length]
            simp at h ⊢
            omega
          rw [hstep, List.getD_append_right _ _ _ _ (by omega), hlen]
          simp

/-- Folding max of absolute values commutes with the cast to `ℚ`. -/
theorem foldl_maxAbs_cast (l : List ℤ) (m : ℤ) :
    (l.map (fun z : ℤ => (z : ℚ))).foldl (fun a x => max a |x|) ((m : ℤ) : ℚ) =
      ((l.foldl (fun a x => max a |x|) m : ℤ) : ℚ) := by
  induction l generalizing m with
  | nil => rfl
  | cons a l ih =>
      simp only [List.map_cons, List.foldl_cons]
      rw [← Int.cast_abs, ← Int.cast_max, ih]

/-- The peak of a casted buffer is the cast of the integer peak. -/
theorem maxAbs_map_cast (l : List ℤ) :
    maxAbs (l.map (fun z : ℤ => (z : ℚ))) = ((maxAbsZ l : ℤ) : ℚ) := by
  have h := foldl_maxAbs_cast l 0
  simpa [maxAbs, maxAbsZ] using h

/-- On integer-valued states, the peak over `k` steps at coefficient `1`
is the cast of the integer mirror computation. -/
theorem runMax_one_cast (k : ℕ) (ps ws : List ℤ) (h : ps.length = ws.length) :
    runMax 1 k ⟨ps.map (fun z : ℤ => (z : ℚ)), ws.map (fun z : ℤ => (z : ℚ))⟩ =
      ((runMaxZ k (ps, ws) : ℤ) : ℚ) := by
  induction k generalizing ps ws with
  | zero => exact maxAbs_map_cast ws
  | succ k ih =>
      show max (maxAbs (ws.map _)) (runMax 1 k (stepWith 1 _)) = _
      have hstep : stepWith 1 ⟨ps.map (fun z : ℤ => (z : ℚ)), ws.map (fun z : ℤ => (z : ℚ))⟩ =
          ⟨ws.map (fun z : ℤ => (z : ℚ)), (nextFastZ ps ws).map (fun z : ℤ => (z : ℚ))⟩ := by
        show (⟨ws.map _, nextBuf 1 (ps.map _) (ws.map _)⟩ : Cells) = _
        rw [nextBuf_one_cast ps ws h]
      rw [hstep, ih ws (nextFastZ ps ws) (nextFastZ_length ps ws h).symm, maxAbs_map_cast,
        ← Int.cast_max]
      rfl

/-- The peak of the start state never exceeds the peak of a run. -/
theorem maxAbsZ_le_runMaxZ (b : ℕ) (s : List ℤ × List ℤ) :
    maxAbsZ s.2 ≤ runMaxZ b s := by
  cases b with
  | zero => exact le_refl _
  | succ b => exact le_max_left _ _

/-- A peak over `a + b` steps splits at step `a`. -/
theorem runMaxZ_add (a b : ℕ) (s : List ℤ × List ℤ) :
    runMaxZ (a + b) s = max (runMaxZ a s) (runMaxZ b (iterStepZ a s)) := by
  induction a generalizing s with
  | zero =>
      rw [Nat.zero_add]
      exact (max_eq_right (maxAbsZ_le_runMaxZ b s)).symm
  | succ a ih =>
      rw [Nat.succ_add]
      show max (maxAbsZ s.2) (runMaxZ (a + b) (stepZ s)) = _
      rw [ih (stepZ s), ← max_assoc]
      rfl

set_option maxRecDepth 100000 in
set_option maxHeartbeats 4000000 in
/-- Steps 0 to 100 of the stability run. -/
theorem runChunk0 :
    iterStepZ 100 (zeros128, zeros128.set 0 1) = sZ 99 1 100 1 ∧
    runMaxZ 100 (zeros128, zeros128.set 0 1) = 1 := by
  constructor <;> decide

set_option maxRecDepth 100000 in
set_option maxHeartbeats 4000000 in
/-- Steps 100 to 200 of the stability run. -/
theorem runChunk1 :
    iterStepZ 100 (sZ 99 1 100 1) = sZ 55 (-1) 54 (-1) ∧
    runMaxZ 100 (sZ 99 1 100 1) = 1 := by
  constructor <;> decide

set_option maxRecDepth 100000 in
set_option maxHeartbeats 4000000 in
/-- Steps 200 to 300 of the stability run. -/
theorem runChunk2 :
    iterStepZ 100 (sZ 55 (-1) 54 (-1)) = sZ 45 1 46 1 ∧
    runMaxZ 100 (sZ 55 (-1) 54 (-1)) = 1 := by
  constructor <;> decide

set_option maxRecDepth 100000 in
set_option maxHeartbeats 4000000 in
/-- Steps 300 to 400 of the stability run. -/
theorem runChunk3 :
    iterStepZ 100 (sZ 45 1 46 1) = sZ 109 (-1) 108 (-1) ∧
    runMaxZ 100 (sZ 45 1 46 1) = 1 := by
  constructor <;> decide

set_option maxRecDepth 100000 in
set_option maxHeartbeats 4000000 in
/-- Steps 400 to 500 of the stability run. -/
theorem runChunk4 :
    iterStepZ 100 (sZ 109 (-1) 108 (-1)) = sZ 9 (-1) 8 (-1) ∧
    runMaxZ 100 (sZ 109 (-1) 108 (-1)) = 1 := by
  constructor <;> decide

set_option maxRecDepth 100000 in
set_option maxHeartbeats 4000000 in
/-- Steps 500 to 600 of the stability run. -/
theorem runChunk5 :
    iterStepZ 100 (sZ 9 (-1) 8 (-1)) = sZ 91 1 92 1 ∧
    runMaxZ 100 (sZ 9 (-1) 8 (-1)) = 1 := by
  constructor <;> decide

set_option maxRecDepth 100000 in
set_option maxHeartbeats 4000000 in
/-- Steps 600 to 700 of the stability run. -/
theorem runChunk6 :
    iterStepZ 100 (sZ 91 1 92 1) = sZ 63 (-1) 62 (-1) ∧
    runMaxZ 100 (sZ 91 1 92 1) = 1 := by
  constructor <;> decide

set_option maxRecDepth 100000 in
set_option maxHeartbeats 4000000 in
/-- Steps 700 to 800 of the stability run. -/
theorem runChunk7 :
    iterStepZ 100 (sZ 63 (-1) 62 (-1)) = sZ 37 1 38 1 ∧
    runMaxZ 100 (sZ 63 (-1) 62 (-1)) = 1 := by
  constructor <;> decide

set_option maxRecDepth 100000 in
set_option maxHeartbeats 4000000 in
/-- Steps 800 to 900 of the stability run. -/
theorem runChunk8 :
    iterStepZ 100 (sZ 37 1 38 1) = sZ 117 (-1) 116 (-1) ∧
    runMaxZ 100 (sZ 37 1 38 1) = 1 := by
  constructor <;> decide

set_option maxRecDepth 100000 in
set_option maxHeartbeats 4000000 in
/-- Steps 900 to 1000 of the stability run. -/
theorem runChunk9 :
    runMaxZ 100 (sZ 117 (-1) 116 (-1)) = 1 := by
  decide

/-- Full integer stability run: the peak over the first 1000 steps from a
unit impulse is exactly `1`. -/
theorem runMaxZ_1000 :
    runMaxZ 1000 (zeros128, zeros128.set 0 1) = 1 := by
  rw [show (1000 : ℕ) = 100 + 900 by norm_num, runMaxZ_add, runChunk0.1, runChunk0.2]
  rw [show (900 : ℕ) = 100 + 800 by norm_num, runMaxZ_add, runChunk1.1, runChunk1.2]
  rw [show (800 : ℕ) = 100 + 700 by norm_num, runMaxZ_add, runChunk2.1, runChunk2.2]
  rw [show (700 : ℕ) = 100 + 600 by norm_num, runMaxZ_add, runChunk3.1, runChunk3.2]
  rw [show (600 : ℕ) = 100 + 500 by norm_num, runMaxZ_add, runChunk4.1, runChunk4.2]
  rw [show (500 : ℕ) = 100 + 400 by norm_num, runMaxZ_add, runChunk5.1, runChunk5.2]
  rw [show (400 : ℕ) = 100 + 300 by norm_num, runMaxZ_add, runChunk6.1, runChunk6.2]
  rw [show (300 : ℕ) = 100 + 200 by norm_num, runMaxZ_add, runChunk7.1, runChunk7.2]
  rw [show (200 : ℕ) = 100 + 100 by norm_num, runMaxZ_add, runChunk8.1, runChunk8.2]
  rw [runChunk9]
  norm_num

/-- C8: with the stencil coefficient configured to `C2 = 1.0` exactly
(the spec's stability limit; the source itself hard-codes `0.5`), a unit
impulse injected into a fresh chamber of the source's `CELL_COUNT` cells
keeps the maximum absolute pressure over the first 1000 steps below `10`
times the injected amplitude — the peak is in fact exactly `1`. -/
theorem energy_bounded_at_stability_limit :
    runMax 1 1000 (add_pressure 1 (Cells.new CELL_COUNT)) < 10 := by
  have hstart : add_pressure 1 (Cells.new CELL_COUNT) =
      ⟨zeros128.map (fun z : ℤ => (z : ℚ)),
       (zeros128.set 0 1).map (fun z : ℤ => (z : ℚ))⟩ := by
    rw [show CELL_COUNT = 128 from rfl]
    rw [show add_pressure 1 (Cells.new 128) =
        ⟨List.replicate 128 (0 : ℚ),
         (List.replicate 128 (0 : ℚ)).set 0 ((List.replicate 128 (0 : ℚ)).getD 0 0 + 1)⟩
      from rfl]
    rw [getD_replicate_zero, zero_add, List.map_set]
    simp only [zeros128]
    rw [List.map_replicate, Int.cast_zero, Int.cast_one]
  rw [hstart, runMax_one_cast 1000 zeros128 (zeros128.set 0 1) (by simp [zeros128]),
    runMaxZ_1000]
  norm_num

end NoiseMaker
